import Mathlib

/-!
Verification of the adaptive partitioned mining scheduler
(`mining/repo_miner.py`, `mining/partitioner.py`, `mining/worker.py`,
`apache_miner.py`, `utilities/config.py`).

The Python code is shallowly embedded: pure fragments become Lean
functions, the controller's result-processing loop becomes an explicit
step function on a `RunState`, and external effects (HTTP responses,
the `urlparse`/GitHub-API lookup outcome, the random sampler) are passed
in as explicit inputs.  Times (`datetime` values) are embedded as
rational day counts; `datetime(y, 1, 1)` is embedded by a proleptic
Gregorian day number so that `timedelta` arithmetic and comparisons are
exact.
-/

/-- Python's substring test `needle in hay`, on lists of characters:
`subListAt n h` holds when `n` is an initial segment of `h`. -/
def subListAt : List Char → List Char → Bool
  | [], _ => true
  | _ :: _, [] => false
  | a :: as, b :: bs => a == b && subListAt as bs

/-- `hasSub n h` holds when `n` occurs contiguously somewhere in `h`. -/
def hasSub : List Char → List Char → Bool
  | n, [] => subListAt n []
  | n, b :: t => subListAt n (b :: t) || hasSub n t

/-- Python's `needle in hay` for strings. -/
def strContains (hay needle : String) : Bool :=
  hasSub needle.data hay.data

namespace config

/-- `utilities/config.py`: maximum number of times to retry a shard if it
times out. -/
def MAX_RETRIES : ℕ := 3

/-- `utilities/config.py`: number of sub-shards to create when splitting a
failed job. -/
def SUB_SHARDS : ℕ := 12

/-- `utilities/config.py`: maximum depth for splitting shards. -/
def MAX_SPLIT_DEPTH : ℕ := 3

/-- `Repo_miner.__init__`: default `target_quota` argument of `fill_quota`. -/
def TARGET_QUOTA : ℕ := 60

end config

/-- A candidate project as consumed by `fill_quota`; only the `name`
field of the Python dict is inspected there. -/
structure Candidate where
  name : String
deriving DecidableEq, Repr

/-- `Repo_miner.__init__.fill_quota` (repo_miner.py lines 33-51).
`sample` stands for `random.sample`; it is an explicit input because the
source draws randomly.  `alreadyMined` is the persisted completed set. -/
def fill_quota (sample : List Candidate → ℕ → List Candidate)
    (alreadyMined : List String) (candidates : List Candidate)
    (target : ℕ) : List Candidate :=
  let completed := candidates.filter (fun p => decide (p.name ∈ alreadyMined))
  let currentCount := completed.length
  if target ≤ currentCount then []
  else
    let needed := target - currentCount
    let available := candidates.filter (fun p => !decide (p.name ∈ alreadyMined))
    let countToTake := min available.length needed
    if countToTake = 0 then []
    else sample available countToTake

/-- An HTTP response as inspected by the crawler: the status code and the
`X-RateLimit-Remaining` header (absent, or a parsed integer). -/
structure HttpResponse where
  statusCode : ℕ
  rateLimitRemaining : Option ℤ
deriving DecidableEq, Repr

/-- Outcome of `_check_rate_limit`: normal return, or the
`RateLimitExceededError` it raises. -/
inductive RLCheck where
  | ok
  | rateLimitExceeded
deriving DecidableEq, Repr

/-- `ApacheGitHubMiner._check_rate_limit` (apache_miner.py lines 55-70).
Input `stop` is the shared stop event; the result pairs the stop event
after the call with the control outcome. -/
def check_rate_limit (stop : Bool) (resp : HttpResponse) : Bool × RLCheck :=
  if stop then (stop, .rateLimitExceeded)
  else
    let isLimited := (resp.statusCode == 403 || resp.statusCode == 429) ||
      (match resp.rateLimitRemaining with
       | some r => r == 0
       | none => false)
    if isLimited then (true, .rateLimitExceeded) else (stop, .ok)

/-- `ApacheGitHubMiner._setup_session` (lines 46-50): the
`status_forcelist` of the urllib3 `Retry` strategy. -/
def statusForcelist : List ℕ := [500, 502, 503, 504]

/-- `ApacheGitHubMiner._setup_session`: the `total` retry budget of the
`Retry` strategy. -/
def retryTotal : ℕ := 3

/-- One repository object of the JSON page body, with the fields
`_fetch_page` reads (`language` may be JSON null). -/
structure RepoJson where
  name : String
  htmlUrl : String
  apiUrl : String
  language : Option String
deriving DecidableEq, Repr

/-- A candidate dict built by `_fetch_page`. -/
structure GhCandidate where
  name : String
  url : String
  apiUrl : String
  language : String
deriving DecidableEq, Repr

/-- `apache_miner.py` constant `TARGET_LANGUAGES`. -/
def TARGET_LANGUAGES : List String := ["Java", "Python", "C++"]

/-- `ApacheGitHubMiner._fetch_page` (lines 89-124).  `resp` and `repos`
stand for the HTTP response and its JSON body.  Returns the stop event
after the call, the number of HTTP requests issued, and the candidate
list.  A `RateLimitExceededError` is swallowed (`except ... pass`)
returning the empty accumulator, and `raise_for_status` errors land in
the generic handler, also returning the accumulator. -/
def fetch_page (stop : Bool) (resp : HttpResponse) (repos : List RepoJson) :
    Bool × ℕ × List GhCandidate :=
  if stop then (stop, 0, [])
  else
    match check_rate_limit stop resp with
    | (stop', .rateLimitExceeded) => (stop', 1, [])
    | (stop', .ok) =>
      if 400 ≤ resp.statusCode then (stop', 1, [])
      else
        (stop', 1, repos.filterMap (fun r =>
          match r.language with
          | some lang =>
            if lang ∈ TARGET_LANGUAGES then
              some ⟨r.name, r.htmlUrl, r.apiUrl, lang⟩
            else none
          | none => none))

/-- `ApacheGitHubMiner.get_total_org_repos` (lines 72-87).  The HTTP
request is issued unconditionally — the stop event is only consulted
afterwards, inside `_check_rate_limit` — hence the request count is 1
for every input.  `.error` is the re-raised `RateLimitExceededError`;
any other failure returns 0. -/
def get_total_org_repos (stop : Bool) (resp : HttpResponse)
    (publicRepos : ℕ) : Bool × ℕ × Except Unit ℕ :=
  match check_rate_limit stop resp with
  | (stop', .rateLimitExceeded) => (stop', 1, .error ())
  | (stop', .ok) =>
    if resp.statusCode = 200 then (stop', 1, .ok publicRepos)
    else (stop', 1, .ok 0)

/-- `ApacheGitHubMiner.get_commit_count` (lines 184-203).  `lastPage`
stands for the parsed `rel="last"` page number of the `Link` header and
`bodyLen` for the length of the JSON body list. -/
def get_commit_count (stop : Bool) (resp : HttpResponse)
    (lastPage : Option ℕ) (bodyLen : ℕ) : Bool × ℕ × ℕ :=
  if stop then (stop, 0, 0)
  else
    match check_rate_limit stop resp with
    | (stop', .rateLimitExceeded) => (stop', 1, 0)
    | (stop', .ok) =>
      if resp.statusCode = 200 then
        match lastPage with
        | some n => (stop', 1, n)
        | none => (stop', 1, bodyLen)
      else (stop', 1, 0)

/-- Days from the proleptic Gregorian epoch to 1 January of year `y`
(up to a constant offset): embeds `datetime(y, 1, 1)`.  Differences and
comparisons of such values agree with `datetime` arithmetic at day
resolution. -/
def jan1 (y : ℕ) : ℕ :=
  365 * y + (y - 1) / 4 - (y - 1) / 100 + (y - 1) / 400

/-- `jan1` as a rational time coordinate. -/
def jan1Q (y : ℕ) : ℚ := (jan1 y : ℚ)

/-- A project dict as consumed by `prepare_job`; `repoUrl`/`url` model
`project.get('repo_url')` / `project.get('url')` (string-valued — the
list-valued `repo_url` variant, of which only the first element would be
used, is not modelled). -/
structure Project where
  name : String
  repoUrl : Option String
  url : Option String
  language : String
deriving DecidableEq, Repr

/-- `project.get('repo_url') or project.get('url')`: Python `or` falls
through on falsy values (`None` and `""`). -/
def firstUrl (p : Project) : Option String :=
  match p.repoUrl with
  | some s => if s = "" then p.url else some s
  | none => p.url

/-- The year-chunking loop of `prepare_job` (partitioner.py lines
52-73), fuelled: one iteration per emitted window.  `datetime` values
are rational day coordinates; `timedelta(days=365)` is the constant
365. -/
def yearGo (now : ℚ) : ℕ → ℚ → List (ℚ × ℚ)
  | 0, _ => []
  | n + 1, cur =>
    if cur < now then
      let nxt := cur + 365
      let nxt2 := if now < nxt then now else nxt
      (cur, nxt2) :: yearGo now n nxt2
    else []

/-- Fuel bound for `yearGo`: `⌈now - start⌉` iterations always suffice
because every iteration advances the cursor by 365 days (or ends the
loop). -/
def yearFuel (now startD : ℚ) : ℕ := (⌈now - startD⌉).toNat

/-- A schedulable shard: the job tuple
`(name, url, start, end, language, depth)` of partitioner/repo_miner. -/
structure Job where
  pName : String
  url : String
  start : Option ℚ
  stop : Option ℚ
  language : String
  depth : ℕ
deriving DecidableEq, Repr

/-- The C++ branch of `prepare_job`: one job per 365-day chunk from
1 January of `startYear`, each with depth 0. -/
def yearShards (name url lang : String) (startYear : ℕ) (now : ℚ) :
    List Job :=
  (yearGo now (yearFuel now (jan1Q startYear)) (jan1Q startYear)).map
    (fun w => ⟨name, url, some w.1, some w.2, lang, 0⟩)

/-- `prepare_job` (partitioner.py lines 6-80).  `ghRepo` stands for the
`urlparse`-based github.com owner/repo extraction (`none` when the URL
is not a github.com URL with at least two path parts, in which case no
API request is made); `lookup` stands for the outcome of the creation
date API call (`none` for every failure: exception, non-200 status,
missing or malformed `created_at`).  `now` is `datetime.now()`.
Returns the number of HTTP requests issued and the job list. -/
def prepare_job (ghRepo : Option (String × String)) (lookup : Option ℕ)
    (now : ℚ) (p : Project) : ℕ × List Job :=
  match firstUrl p with
  | none => (0, [])
  | some raw =>
    if raw = "" then (0, [])
    else if p.language = "C++" then
      let calls := if ghRepo.isSome then 1 else 0
      let startYear :=
        match ghRepo, lookup with
        | some _, some y => y
        | _, _ => 2000
      (calls, yearShards p.name raw p.language startYear now)
    else (0, [⟨p.name, raw, none, none, p.language, 0⟩])

/-- The windows `l` chop `[s, now)` into consecutive chunks: each window
starts where the previous ended, spans `min (start + 365) now`, and the
list ends exactly when the cursor reaches `now`. -/
def ChainGood (now : ℚ) : ℚ → List (ℚ × ℚ) → Prop
  | s, [] => ¬ s < now
  | s, (a, b) :: t => s < now ∧ a = s ∧ b = min (s + 365) now ∧ ChainGood now b t

/-- Result of one `mine_repo` execution as consumed by the controller:
`stopped` is the `None` returned when the worker saw the stop event at
entry; otherwise the `(name, added, initial, error)` tuple, of which the
controller reads `added` and `error`. -/
inductive MineResult where
  | stopped
  | done (added : ℕ) (error : Option String)
deriving DecidableEq, Repr

/-- `error and "TIMED OUT" in str(error)` (repo_miner.py line 139). -/
def isTimeoutErr : Option String → Bool
  | some e => strContains e "TIMED OUT"
  | none => false

/-- Controller-private run state of `Repo_miner.run` phase 2:
the outstanding `future_to_job` jobs, `shards_remaining`,
`project_errors`, `retry_counts`, and the sequence of
`mark_project_as_completed` calls (most recent first). -/
structure RunState where
  pending : List Job
  shardsRemaining : String → ℤ
  projectErrors : String → Bool
  retryCounts : Job → ℕ
  completedMarks : List String

/-- The splitting loop of repo_miner.py lines 155-165: emits `n`
windows; each segment end is capped at `e`; the cursor moves to the
(possibly capped) segment end. -/
def splitGo (e d : ℚ) : ℕ → ℚ → List (ℚ × ℚ)
  | 0, _ => []
  | n + 1, cur =>
    let se := cur + d
    let se2 := if e < se then e else se
    (cur, se2) :: splitGo e d n se2

/-- The child jobs created when shard `j` with window `[s, e]` splits:
`SUB_SHARDS` windows of width `(e - s) / SUB_SHARDS`, each at
`depth + 1` (lines 151-160). -/
def splitChildren (j : Job) (s e : ℚ) : List Job :=
  (splitGo e ((e - s) / (config.SUB_SHARDS : ℚ)) config.SUB_SHARDS s).map
    (fun w => { j with start := some w.1, stop := some w.2, depth := j.depth + 1 })

/-- Lines 191-198 of repo_miner.py: the terminal fall-through that
decrements `shards_remaining[p]` and, when it hits 0 with no recorded
error, appends the `mark_project_as_completed` call. -/
def terminalUpdate (st : RunState) (p : String) : RunState :=
  let n := st.shardsRemaining p - 1
  let marks :=
    if n = 0 ∧ st.projectErrors p = false then p :: st.completedMarks
    else st.completedMarks
  { st with shardsRemaining := Function.update st.shardsRemaining p n,
            completedMarks := marks }

/-- One iteration of the result-processing loop of `Repo_miner.run`
(lines 128-207) for a finished job `j` with result `r`: the future is
popped, then the retry/split/terminal logic runs.  Worker-infrastructure
failures (`future.result()` raising, lines 203-207) are outside the
model: `mine_repo` catches every exception and returns a tuple. -/
def step (st : RunState) (j : Job) (r : MineResult) : RunState :=
  let pending' := st.pending.erase j
  match r with
  | .stopped => { st with pending := pending' }
  | .done _added error =>
    if isTimeoutErr error then
      let rc := st.retryCounts j + 1
      let retryCounts' := Function.update st.retryCounts j rc
      if rc ≤ config.MAX_RETRIES then
        match j.start, j.stop with
        | some s, some e =>
          if rc = 2 ∧ j.depth < config.MAX_SPLIT_DEPTH then
            let children := splitChildren j s e
            { st with
              pending := children ++ pending',
              retryCounts :=
                children.foldl (fun f c => Function.update f c 0) retryCounts',
              shardsRemaining := Function.update st.shardsRemaining j.pName
                (st.shardsRemaining j.pName + ((config.SUB_SHARDS : ℤ) - 1)) }
          else
            { st with pending := j :: pending', retryCounts := retryCounts' }
        | _, _ =>
          { st with pending := j :: pending', retryCounts := retryCounts' }
      else
        terminalUpdate
          { st with pending := pending', retryCounts := retryCounts',
                    projectErrors := Function.update st.projectErrors j.pName true }
          j.pName
    else
      let flagged :=
        match error with
        | some e =>
          !(e == "") && !strContains e "TIMED OUT" &&
            !strContains e "No commits found"
        | none => false
      terminalUpdate
        { st with pending := pending',
                  projectErrors :=
                    if flagged then Function.update st.projectErrors j.pName true
                    else st.projectErrors }
        j.pName

/-- Run a sequence of (finished job, result) events through the
controller loop. -/
def runTrace : RunState → List (Job × MineResult) → RunState
  | st, [] => st
  | st, (j, r) :: t => runTrace (step st j r) t

/-- A trace is valid when every processed job was outstanding at the
time its result arrived. -/
def validB : RunState → List (Job × MineResult) → Bool
  | _, [] => true
  | st, (j, r) :: t => decide (j ∈ st.pending) && validB (step st j r) t

/-- Number of outstanding jobs of project `p`. -/
def pendingCount (st : RunState) (p : String) : ℕ :=
  st.pending.countP (fun j => j.pName == p)

/-- The state at the start of phase 2 (lines 90-96): `shards_remaining`
counts the planned jobs per project, no errors, no retries, no
completion marks. -/
def initState (jobs : List Job) : RunState where
  pending := jobs
  shardsRemaining := fun p => (jobs.countP (fun j => j.pName == p) : ℤ)
  projectErrors := fun _ => false
  retryCounts := fun _ => 0
  completedMarks := []

/-- An event sets `project_errors[p]` when it is a timeout past the last
retry, or a non-timeout error that is truthy in Python (present and
non-empty) and whose message does not contain "No commits found"
(repo_miner.py line 187: `error and "TIMED OUT" not in str(error) and
"No commits found" not in str(error)`). -/
def flagging (st : RunState) (j : Job) (r : MineResult) : Bool :=
  match r with
  | .stopped => false
  | .done _ error =>
    if isTimeoutErr error then decide (config.MAX_RETRIES < st.retryCounts j + 1)
    else
      match error with
      | some e =>
        !(e == "") && !strContains e "TIMED OUT" &&
          !strContains e "No commits found"
      | none => false

/-- No event of the trace drops a shard of project `p` via the stop
event (`result is None`). -/
def noDropsB (p : String) : List (Job × MineResult) → Bool
  | [] => true
  | (j, r) :: t => (!(j.pName == p) || !(r == MineResult.stopped)) && noDropsB p t

/-- No event of the trace sets `project_errors[p]`. -/
def noFlagsB (p : String) : RunState → List (Job × MineResult) → Bool
  | _, [] => true
  | st, (j, r) :: t =>
    (!(j.pName == p) || !flagging st j r) && noFlagsB p (step st j r) t

/-- Claim C4: for a candidate list, a completed set and a target quota,
`fill_quota` selects nothing when the completed candidates already meet
the target, and otherwise selects exactly
`min (target - completedCount) available.length` candidates, all drawn
(without replacement) from the candidates not already completed — under
the hypothesis that `sample` behaves like `random.sample`: it returns
`k` elements forming a permutation of a sublist of its input. -/
theorem fill_quota_spec (sample : List Candidate → ℕ → List Candidate)
    (hsample : ∀ l k, k ≤ l.length →
      (sample l k).length = k ∧ ∃ l', l'.Sublist l ∧ (sample l k).Perm l')
    (alreadyMined : List String) (candidates : List Candidate) (target : ℕ) :
    (target ≤ (candidates.filter
        (fun p => decide (p.name ∈ alreadyMined))).length →
      fill_quota sample alreadyMined candidates target = []) ∧
    (fill_quota sample alreadyMined candidates target).length =
      min (target - (candidates.filter
        (fun p => decide (p.name ∈ alreadyMined))).length)
        (candidates.filter (fun p => !decide (p.name ∈ alreadyMined))).length ∧
    ∀ p ∈ fill_quota sample alreadyMined candidates target,
      p.name ∉ alreadyMined := by
  classical
  set completed := candidates.filter (fun p => decide (p.name ∈ alreadyMined))
    with hcompleted
  set available := candidates.filter (fun p => !decide (p.name ∈ alreadyMined))
    with havailable
  refine ⟨?_, ?_, ?_⟩
  · intro h
    simp [fill_quota, ← hcompleted, h]
  · by_cases h : target ≤ completed.length
    · have : target - completed.length = 0 := Nat.sub_eq_zero_of_le h
      simp [fill_quota, ← hcompleted, ← havailable, h, this]
    · have hlt : completed.length < target := Nat.lt_of_not_le h
      by_cases h0 : min available.length (target - completed.length) = 0
      · simp only [fill_quota, ← hcompleted, ← havailable, if_neg h, if_pos h0,
          List.length_nil]
        omega
      · have hle : min available.length (target - completed.length) ≤ available.length :=
          Nat.min_le_left _ _
        have := (hsample available (min available.length (target - completed.length)) hle).1
        simp [fill_quota, ← hcompleted, ← havailable, h, h0, this]
        omega
  · intro p hp
    by_cases h : target ≤ completed.length
    · simp [fill_quota, ← hcompleted, h] at hp
    · by_cases h0 : min available.length (target - completed.length) = 0
      · simp [fill_quota, ← hcompleted, ← havailable, h, h0] at hp
      · have hle : min available.length (target - completed.length) ≤ available.length :=
          Nat.min_le_left _ _
        obtain ⟨-, l', hsub, hperm⟩ :=
          hsample available (min available.length (target - completed.length)) hle
        have hmem : p ∈ available := by
          have hp' : p ∈ sample available
              (min available.length (target - completed.length)) := by
            simpa [fill_quota, ← hcompleted, ← havailable, h, h0] using hp
          exact hsub.subset (hperm.mem_iff.mp hp')
        have := List.of_mem_filter hmem
        simpa using this

/-- Witness for `fill_quota_spec`, instantiating `sample` with
`List.take` (a valid without-replacement sampler), two candidates one of
which is completed, and the default target 60. -/
theorem fill_quota_spec_witness :
    (fill_quota (fun l k => l.take k) ["a"] [⟨"a"⟩, ⟨"b"⟩]
        config.TARGET_QUOTA).length =
      min (config.TARGET_QUOTA - 1) 1 ∧
    ∀ p ∈ fill_quota (fun l k => l.take k) ["a"] [⟨"a"⟩, ⟨"b"⟩]
        config.TARGET_QUOTA, p.name ∉ ["a"] := by
  have h := fill_quota_spec (fun l k => l.take k)
    (fun l k hk => ⟨by simp [List.length_take, Nat.min_eq_left hk],
      l.take k, List.take_sublist k l, List.Perm.refl _⟩)
    ["a"] [⟨"a"⟩, ⟨"b"⟩] config.TARGET_QUOTA
  refine ⟨?_, h.2.2⟩
  have := h.2.1
  simpa using this

/-- Claim C6: a response with status 403 or 429, or with a zero
remaining-quota header, makes `_check_rate_limit` set the shared stop
signal and raise `RateLimitExceededError`; such statuses are not in the
session's retry forcelist (only four 5xx statuses are, with a fixed
total of 3 retries); and no crawler operation ever resets a set stop
signal. -/
theorem rate_limit_fatal (stop : Bool) (resp : HttpResponse)
    (h : resp.statusCode = 403 ∨ resp.statusCode = 429 ∨
      resp.rateLimitRemaining = some 0) :
    check_rate_limit stop resp = (true, RLCheck.rateLimitExceeded) ∧
    403 ∉ statusForcelist ∧ 429 ∉ statusForcelist ∧
    (∀ c ∈ statusForcelist, 500 ≤ c ∧ c ≤ 599) ∧ retryTotal = 3 ∧
    (∀ r : HttpResponse, (check_rate_limit true r).1 = true) ∧
    (∀ (r : HttpResponse) (repos : List RepoJson),
      (fetch_page true r repos).1 = true) ∧
    (∀ (r : HttpResponse) (n : ℕ), (get_total_org_repos true r n).1 = true) ∧
    (∀ (r : HttpResponse) (lp : Option ℕ) (bl : ℕ),
      (get_commit_count true r lp bl).1 = true) := by
  refine ⟨?_, by decide, by decide, by decide, rfl, ?_, ?_, ?_, ?_⟩
  · cases stop with
    | true => simp [check_rate_limit]
    | false =>
      rcases h with h | h | h <;> simp [check_rate_limit, h]
  · intro r; simp [check_rate_limit]
  · intro r repos; simp [fetch_page]
  · intro r n; simp [get_total_org_repos, check_rate_limit]
  · intro r lp bl; simp [get_commit_count]

/-- Witness for `rate_limit_fatal` at a concrete 403 response with the
stop signal not yet set. -/
theorem rate_limit_fatal_witness :
    ((⟨403, some 42⟩ : HttpResponse).statusCode = 403 ∨
      (⟨403, some 42⟩ : HttpResponse).statusCode = 429 ∨
      (⟨403, some 42⟩ : HttpResponse).rateLimitRemaining = some 0) ∧
    check_rate_limit false ⟨403, some 42⟩ = (true, RLCheck.rateLimitExceeded) :=
  ⟨Or.inl rfl, (rate_limit_fatal false ⟨403, some 42⟩ (Or.inl rfl)).1⟩

/-- Claim C5 counterexample: the claim says that once the stop signal is
set no further network calls are issued by the Crawler or the Shard
Planner.  But `prepare_job` never reads the stop signal — its embedding
takes no stop input at all — and here it issues its creation-date
request (request count 1) for a C++ GitHub project; and the Crawler's
`get_total_org_repos` still issues its request (count 1) even with the
stop signal already set, because it checks the signal only after the
response arrives. -/
theorem stop_signal_counterexample :
    (prepare_job (some ("apache", "arrow")) (some 2016) (jan1Q 2017)
      ⟨"arrow", some "https://github.com/apache/arrow", none, "C++"⟩).1 = 1 ∧
    (get_total_org_repos true ⟨200, some 50⟩ 100).2.1 = 1 := by
  constructor
  · rfl
  · rfl

/-- Claim C5 amended: once the stop signal is set, the Crawler's
`_fetch_page` and `get_commit_count` issue no network calls (they check
the signal at entry and return immediately); but `get_total_org_repos`
still issues exactly one request (it checks only after the response),
and the Shard Planner's `prepare_job` performs no stop check at all and
issues its creation-date request whenever the project is C++ with a
usable GitHub URL. -/
theorem stop_signal_amended (resp : HttpResponse) (repos : List RepoJson)
    (lp : Option ℕ) (bl n : ℕ) (gh : String × String) (lk : Option ℕ)
    (now : ℚ) (p : Project) (raw : String)
    (hcpp : p.language = "C++") (hurl : firstUrl p = some raw)
    (hne : raw ≠ "") :
    fetch_page true resp repos = (true, 0, []) ∧
    get_commit_count true resp lp bl = (true, 0, 0) ∧
    (get_total_org_repos true resp n).2.1 = 1 ∧
    (prepare_job (some gh) lk now p).1 = 1 := by
  refine ⟨by simp [fetch_page], by simp [get_commit_count], ?_, ?_⟩
  · simp [get_total_org_repos, check_rate_limit]
  · simp [prepare_job, hurl, hne, hcpp]

/-- Witness for `stop_signal_amended` at a concrete response and
project. -/
theorem stop_signal_amended_witness :
    ((⟨"arrow", some "u", none, "C++"⟩ : Project).language = "C++" ∧
      firstUrl ⟨"arrow", some "u", none, "C++"⟩ = some "u" ∧ "u" ≠ "") ∧
    fetch_page true ⟨200, none⟩ [] = (true, 0, []) ∧
    get_commit_count true ⟨200, none⟩ none 7 = (true, 0, 0) ∧
    (get_total_org_repos true ⟨200, none⟩ 3).2.1 = 1 ∧
    (prepare_job (some ("apache", "arrow")) none 5 ⟨"arrow", some "u", none, "C++"⟩).1 = 1 :=
  ⟨⟨rfl, rfl, by decide⟩,
    stop_signal_amended ⟨200, none⟩ [] none 7 3 ("apache", "arrow") none 5
      ⟨"arrow", some "u", none, "C++"⟩ "u" rfl rfl (by decide)⟩

/-- The cap `if next > now: next = now` computes the minimum. -/
theorem cap_eq_min (now x : ℚ) : (if now < x then now else x) = min x now := by
  rcases le_or_lt x now with h | h
  · simp [min_eq_left h, not_lt.mpr h]
  · simp [min_eq_right (le_of_lt h), h]

/-- The year-chunking loop produces a good chain whenever its fuel
covers the distance to `now`. -/
theorem yearGo_chainGood (now : ℚ) :
    ∀ (n : ℕ) (cur : ℚ), now - cur ≤ 365 * (n : ℚ) →
      ChainGood now cur (yearGo now n cur) := by
  intro n
  induction n with
  | zero =>
    intro cur h
    simp only [Nat.cast_zero, mul_zero] at h
    simp only [yearGo, ChainGood]
    intro hlt
    linarith
  | succ k ih =>
    intro cur h
    by_cases hlt : cur < now
    · simp only [yearGo, if_pos hlt]
      rw [cap_eq_min now (cur + 365)]
      refine ⟨hlt, rfl, rfl, ih (min (cur + 365) now) ?_⟩
      rcases le_total (cur + 365) now with hc | hc
      · rw [min_eq_left hc]
        push_cast at h ⊢
        linarith
      · rw [min_eq_right hc]
        have : (0 : ℚ) ≤ 365 * (k : ℚ) := by positivity
        linarith
    · simp only [yearGo, if_neg hlt]
      exact hlt

/-- The fuel chosen by `yearShards` covers the distance to `now`. -/
theorem yearFuel_covers (now s : ℚ) : now - s ≤ 365 * ((yearFuel now s : ℕ) : ℚ) := by
  unfold yearFuel
  rcases le_or_lt (now - s) 0 with h | h
  · have : (0 : ℚ) ≤ 365 * ((⌈now - s⌉.toNat : ℕ) : ℚ) := by positivity
    linarith
  · have hc : (0 : ℤ) ≤ ⌈now - s⌉ := Int.ceil_nonneg (le_of_lt h)
    have h1 : now - s ≤ (⌈now - s⌉ : ℚ) := Int.le_ceil _
    have h2 : ((⌈now - s⌉.toNat : ℕ) : ℚ) = ((⌈now - s⌉ : ℤ) : ℚ) := by
      exact_mod_cast congrArg (fun z : ℤ => (z : ℚ)) (Int.toNat_of_nonneg hc)
    rw [h2]
    nlinarith [h1, (Int.cast_nonneg.mpr hc : (0:ℚ) ≤ ((⌈now - s⌉ : ℤ) : ℚ))]

/-- The shard list of the C++ branch is nonempty as soon as the start
boundary lies before `now`. -/
theorem yearShards_ne_nil (name url lang : String) (y : ℕ) (now : ℚ)
    (h : jan1Q y < now) : yearShards name url lang y now ≠ [] := by
  unfold yearShards
  have hf : yearFuel now (jan1Q y) ≠ 0 := by
    unfold yearFuel
    have h1 : (0 : ℚ) < now - jan1Q y := by linarith
    have : (0 : ℤ) < ⌈now - jan1Q y⌉ := Int.ceil_pos.mpr h1
    omega
  cases hfe : yearFuel now (jan1Q y) with
  | zero => exact absurd hfe hf
  | succ k => simp [yearGo, if_pos h]

/-- Claim C7 counterexample: for a C++ project created in 2000 mined at
time `jan1 2000 + 366` (which is 1 January 2001, since 2000 is a leap
year), the planner emits two shards and the first — a non-final shard —
spans `[1 Jan 2000, 1 Jan 2000 + 365 days)`, which is not the calendar
year 2000: the calendar year ends at `jan1 2001 = jan1 2000 + 366`.
Windows advance by `timedelta(days=365)`, not by calendar years. -/
theorem year_windows_counterexample :
    ((prepare_job (some ("apache", "x")) (some 2000) (jan1Q 2000 + 366)
        ⟨"x", some "u", none, "C++"⟩).2.head?.map (fun j => (j.start, j.stop))) =
      some (some (jan1Q 2000), some (jan1Q 2000 + 365)) ∧
    (prepare_job (some ("apache", "x")) (some 2000) (jan1Q 2000 + 366)
        ⟨"x", some "u", none, "C++"⟩).2.length ≠ 1 ∧
    (prepare_job (some ("apache", "x")) (some 2000) (jan1Q 2000 + 366)
        ⟨"x", some "u", none, "C++"⟩).2 ≠ [] ∧
    jan1Q 2001 = jan1Q 2000 + 366 ∧
    jan1Q 2000 + 365 ≠ jan1Q 2001 := by
  have hyear : jan1 2001 = jan1 2000 + 366 := by decide
  have hyq : jan1Q 2001 = jan1Q 2000 + 366 := by
    unfold jan1Q
    rw [hyear]
    push_cast
    ring
  have he : (prepare_job (some ("apache", "x")) (some 2000) (jan1Q 2000 + 366)
      ⟨"x", some "u", none, "C++"⟩).2 =
      yearShards "x" "u" "C++" 2000 (jan1Q 2000 + 366) := by
    simp [prepare_job, firstUrl]
  have hlt : jan1Q 2000 < jan1Q 2000 + 366 := by
    have : (0 : ℚ) < 366 := by norm_num
    linarith
  have hcg := yearGo_chainGood (jan1Q 2000 + 366)
    (yearFuel (jan1Q 2000 + 366) (jan1Q 2000)) (jan1Q 2000)
    (yearFuel_covers (jan1Q 2000 + 366) (jan1Q 2000))
  rcases hl : yearGo (jan1Q 2000 + 366)
      (yearFuel (jan1Q 2000 + 366) (jan1Q 2000)) (jan1Q 2000) with _ | ⟨w, rest⟩
  · rw [hl] at hcg
    exact absurd hlt hcg
  · rw [hl] at hcg
    obtain ⟨-, hw1, hw2, hrest⟩ := hcg
    have hmin : min (jan1Q 2000 + 365) (jan1Q 2000 + 366) = jan1Q 2000 + 365 :=
      min_eq_left (by linarith)
    have hw2' : w.2 = jan1Q 2000 + 365 := by rw [hw2, hmin]
    have hrne : rest ≠ [] := by
      intro hr
      rw [hr, hw2'] at hrest
      exact hrest (by linarith)
    refine ⟨?_, ?_, ?_, hyq, ?_⟩
    · rw [he]
      unfold yearShards
      rw [hl]
      simp [hw1, hw2']
    · rw [he]
      unfold yearShards
      rw [hl]
      simp only [List.map_cons, List.length_cons, List.length_map]
      intro hlen
      exact hrne (List.length_eq_zero.mp (by omega))
    · rw [he]
      unfold yearShards
      rw [hl]
      simp
    · rw [hyq]
      intro hcontra
      have : (365 : ℚ) = 366 := by linarith
      norm_num at this

/-- Claim C7 amended: for a C++ project with a usable URL, the planner
emits consecutive 365-day windows starting at 1 January of the
creation year, the final window capped at `now` (`ChainGood`); every
shard carries depth 0 and the project's name, URL and language; and at
least one shard is emitted when the start boundary lies before `now`. -/
theorem year_chunks_amended (gh : String × String) (y : ℕ) (now : ℚ)
    (p : Project) (raw : String) (hcpp : p.language = "C++")
    (hurl : firstUrl p = some raw) (hne : raw ≠ "") :
    (prepare_job (some gh) (some y) now p).2 =
      (yearGo now (yearFuel now (jan1Q y)) (jan1Q y)).map
        (fun w => ⟨p.name, raw, some w.1, some w.2, p.language, 0⟩) ∧
    ChainGood now (jan1Q y) (yearGo now (yearFuel now (jan1Q y)) (jan1Q y)) ∧
    (jan1Q y < now → (prepare_job (some gh) (some y) now p).2 ≠ []) ∧
    (∀ j ∈ (prepare_job (some gh) (some y) now p).2,
      j.depth = 0 ∧ j.pName = p.name ∧ j.url = raw ∧ j.language = p.language) := by
  have he : (prepare_job (some gh) (some y) now p).2 =
      yearShards p.name raw p.language y now := by
    simp [prepare_job, hurl, hne, hcpp]
  refine ⟨?_, ?_, ?_, ?_⟩
  · rw [he]; rfl
  · exact yearGo_chainGood now _ _ (yearFuel_covers now (jan1Q y))
  · intro hlt
    rw [he]
    exact yearShards_ne_nil p.name raw p.language y now hlt
  · intro j hj
    rw [he] at hj
    unfold yearShards at hj
    obtain ⟨w, -, rfl⟩ := List.mem_map.mp hj
    exact ⟨rfl, rfl, rfl, rfl⟩

/-- Witness for `year_chunks_amended` at a concrete project and time. -/
theorem year_chunks_amended_witness :
    ((⟨"x", some "u", none, "C++"⟩ : Project).language = "C++" ∧
      firstUrl ⟨"x", some "u", none, "C++"⟩ = some "u" ∧ "u" ≠ "") ∧
    ChainGood (jan1Q 2000 + 366) (jan1Q 2000)
      (yearGo (jan1Q 2000 + 366) (yearFuel (jan1Q 2000 + 366) (jan1Q 2000))
        (jan1Q 2000)) ∧
    (prepare_job (some ("apache", "x")) (some 2000) (jan1Q 2000 + 366)
      ⟨"x", some "u", none, "C++"⟩).2 ≠ [] :=
  ⟨⟨rfl, rfl, by decide⟩,
    (year_chunks_amended ("apache", "x") 2000 (jan1Q 2000 + 366)
      ⟨"x", some "u", none, "C++"⟩ "u" rfl rfl (by decide)).2.1,
    (year_chunks_amended ("apache", "x") 2000 (jan1Q 2000 + 366)
      ⟨"x", some "u", none, "C++"⟩ "u" rfl rfl (by decide)).2.2.1
      (lt_add_of_pos_right (jan1Q 2000) (by norm_num : (0:ℚ) < 366))⟩

/-- Claim C9: when the creation-date lookup fails for any reason
(`lookup = none` covers network errors, non-200 statuses and malformed
or missing fields; `gh = none` additionally covers URLs where no request
is even attempted), planning still returns the full shard plan computed
from the fixed default creation year 2000 — identical to the plan for a
successful lookup answering 2000 — and it is nonempty whenever 1 January
2000 lies before `now`. -/
theorem lookup_failure_fallback (gh : Option (String × String)) (now : ℚ)
    (p : Project) (raw : String) (hcpp : p.language = "C++")
    (hurl : firstUrl p = some raw) (hne : raw ≠ "") :
    (prepare_job gh none now p).2 = yearShards p.name raw p.language 2000 now ∧
    (prepare_job gh none now p).2 = (prepare_job gh (some 2000) now p).2 ∧
    (jan1Q 2000 < now → (prepare_job gh none now p).2 ≠ []) ∧
    (∀ j ∈ (prepare_job gh none now p).2, j.depth = 0) := by
  have he : (prepare_job gh none now p).2 =
      yearShards p.name raw p.language 2000 now := by
    cases gh <;> simp [prepare_job, hurl, hne, hcpp]
  refine ⟨he, ?_, ?_, ?_⟩
  · rw [he]
    cases gh <;> simp [prepare_job, hurl, hne, hcpp]
  · intro hlt
    rw [he]
    exact yearShards_ne_nil p.name raw p.language 2000 now hlt
  · intro j hj
    rw [he] at hj
    unfold yearShards at hj
    obtain ⟨w, -, rfl⟩ := List.mem_map.mp hj
    rfl

/-- Witness for `lookup_failure_fallback`: a failed lookup for a
concrete C++ project still yields a nonempty year-chunk plan. -/
theorem lookup_failure_fallback_witness :
    ((⟨"x", some "u", none, "C++"⟩ : Project).language = "C++" ∧
      firstUrl ⟨"x", some "u", none, "C++"⟩ = some "u" ∧ "u" ≠ "") ∧
    (prepare_job (some ("apache", "x")) none (jan1Q 2000 + 366)
        ⟨"x", some "u", none, "C++"⟩).2 =
      (prepare_job (some ("apache", "x")) (some 2000) (jan1Q 2000 + 366)
        ⟨"x", some "u", none, "C++"⟩).2 ∧
    (prepare_job (some ("apache", "x")) none (jan1Q 2000 + 366)
        ⟨"x", some "u", none, "C++"⟩).2 ≠ [] :=
  ⟨⟨rfl, rfl, by decide⟩,
    (lookup_failure_fallback (some ("apache", "x")) (jan1Q 2000 + 366)
      ⟨"x", some "u", none, "C++"⟩ "u" rfl rfl (by decide)).2.1,
    (lookup_failure_fallback (some ("apache", "x")) (jan1Q 2000 + 366)
      ⟨"x", some "u", none, "C++"⟩ "u" rfl rfl (by decide)).2.2.1
      (lt_add_of_pos_right (jan1Q 2000) (by norm_num : (0:ℚ) < 366))⟩

/-- `splitGo` always emits exactly `n` windows. -/
theorem splitGo_length (e d : ℚ) :
    ∀ (n : ℕ) (cur : ℚ), (splitGo e d n cur).length = n := by
  intro n
  induction n with
  | zero => intro cur; rfl
  | succ k ih => intro cur; simp [splitGo, ih]

/-- A split always creates exactly `SUB_SHARDS` children. -/
theorem splitChildren_length (j : Job) (s e : ℚ) :
    (splitChildren j s e).length = config.SUB_SHARDS := by
  unfold splitChildren
  rw [List.length_map, splitGo_length]

/-- Children inherit the parent's project name, URL and language, and
carry the parent's depth plus one. -/
theorem splitChildren_fields (j : Job) (s e : ℚ) :
    ∀ c ∈ splitChildren j s e,
      c.pName = j.pName ∧ c.depth = j.depth + 1 ∧
      c.url = j.url ∧ c.language = j.language := by
  intro c hc
  obtain ⟨w, -, rfl⟩ := List.mem_map.mp hc
  exact ⟨rfl, rfl, rfl, rfl⟩

/-- Erasing an element not counted by `f` leaves `countP` unchanged. -/
theorem countP_erase_of_neg {α : Type} [DecidableEq α] (f : α → Bool) (a : α)
    (hf : f a = false) : ∀ l : List α, (l.erase a).countP f = l.countP f := by
  intro l
  induction l with
  | nil => rfl
  | cons b t ih =>
    rw [List.erase_cons]
    by_cases hba : b = a
    · subst hba
      rw [if_pos (by simp)]
      exact (List.countP_cons_of_neg f t (by simp [hf])).symm
    · rw [if_neg (by simp [hba])]
      by_cases hfb : f b = true
      · rw [List.countP_cons_of_pos f _ hfb, List.countP_cons_of_pos f _ hfb, ih]
      · rw [List.countP_cons_of_neg f _ hfb, List.countP_cons_of_neg f _ hfb, ih]

/-- Erasing a present element counted by `f` lowers `countP` by one. -/
theorem countP_erase_of_pos {α : Type} [DecidableEq α] (f : α → Bool) (a : α)
    (hf : f a = true) : ∀ l : List α, a ∈ l →
      (l.erase a).countP f + 1 = l.countP f := by
  intro l
  induction l with
  | nil => intro h; exact absurd h (List.not_mem_nil a)
  | cons b t ih =>
    intro hmem
    rw [List.erase_cons]
    by_cases hba : b = a
    · subst hba
      rw [if_pos (by simp)]
      exact (List.countP_cons_of_pos f t (by simp [hf])).symm
    · rw [if_neg (by simp [hba])]
      have hat : a ∈ t := by
        rcases List.mem_cons.mp hmem with h | h
        · exact absurd h.symm hba
        · exact h
      by_cases hfb : f b = true
      · rw [List.countP_cons_of_pos f _ hfb, List.countP_cons_of_pos f _ hfb,
          ← ih hat]
      · rw [List.countP_cons_of_neg f _ hfb, List.countP_cons_of_neg f _ hfb,
          ih hat]

/-- After folding constant updates over a list, elements off the list
keep their old value. -/
theorem foldl_update_not_mem {α β : Type} [DecidableEq α] (v : β) :
    ∀ (l : List α) (f : α → β) (c : α), c ∉ l →
      (l.foldl (fun g x => Function.update g x v) f) c = f c := by
  intro l
  induction l with
  | nil => intro f c _; rfl
  | cons a t ih =>
    intro f c hc
    have hca : c ≠ a := fun h => hc (h ▸ List.mem_cons_self a t)
    have hct : c ∉ t := fun h => hc (List.mem_cons_of_mem a h)
    simp only [List.foldl_cons]
    rw [ih _ c hct, Function.update_noteq hca]

/-- After folding constant updates over a list, every listed element
gets the constant. -/
theorem foldl_update_mem {α β : Type} [DecidableEq α] (v : β) :
    ∀ (l : List α) (f : α → β) (c : α), c ∈ l →
      (l.foldl (fun g x => Function.update g x v) f) c = v := by
  intro l
  induction l with
  | nil => intro f c h; exact absurd h (List.not_mem_nil c)
  | cons a t ih =>
    intro f c hc
    simp only [List.foldl_cons]
    by_cases hct : c ∈ t
    · exact ih _ c hct
    · have hca : c = a := by
        rcases List.mem_cons.mp hc with h | h
        · exact h
        · exact absurd h hct
      subst hca
      rw [foldl_update_not_mem v t _ c hct, Function.update_same]

/-- A `None` worker result only pops the job (repo_miner.py line 134). -/
theorem step_stopped (st : RunState) (j : Job) :
    step st j .stopped = { st with pending := st.pending.erase j } := rfl

/-- A timeout within the retry budget that does not meet the split
condition resubmits the same job with its retry counter bumped. -/
theorem step_retry (st : RunState) (j : Job) (added : ℕ) (err : Option String)
    (hT : isTimeoutErr err = true)
    (hrc : st.retryCounts j + 1 ≤ config.MAX_RETRIES)
    (hns : j.start = none ∨ j.stop = none ∨
      ¬(st.retryCounts j + 1 = 2 ∧ j.depth < config.MAX_SPLIT_DEPTH)) :
    step st j (.done added err) =
      { st with pending := j :: st.pending.erase j,
                retryCounts :=
                  Function.update st.retryCounts j (st.retryCounts j + 1) } := by
  rcases hns with h | h | h
  · simp [step, hT, hrc, h]
  · cases hs : j.start <;> simp [step, hT, hrc, h, hs]
  · have h' : ¬(st.retryCounts j = 1 ∧ j.depth < config.MAX_SPLIT_DEPTH) :=
      fun hc => h ⟨by rw [hc.1], hc.2⟩
    cases hs : j.start <;> cases hst : j.stop <;>
      simp [step, hT, hrc, hs, hst, h, h']

/-- A second timeout on a windowed shard below the depth cap splits it
(repo_miner.py lines 148-167). -/
theorem step_split (st : RunState) (j : Job) (added : ℕ) (err : Option String)
    (s e : ℚ) (hT : isTimeoutErr err = true)
    (hs : j.start = some s) (he : j.stop = some e)
    (hrc2 : st.retryCounts j + 1 = 2)
    (hd : j.depth < config.MAX_SPLIT_DEPTH) :
    step st j (.done added err) =
      { st with
        pending := splitChildren j s e ++ st.pending.erase j,
        retryCounts :=
          (splitChildren j s e).foldl (fun f c => Function.update f c 0)
            (Function.update st.retryCounts j (st.retryCounts j + 1)),
        shardsRemaining := Function.update st.shardsRemaining j.pName
          (st.shardsRemaining j.pName + ((config.SUB_SHARDS : ℤ) - 1)) } := by
  have hle : st.retryCounts j + 1 ≤ config.MAX_RETRIES := by
    rw [hrc2]; decide
  have h2 : ¬ (config.MAX_RETRIES < 2) := by decide
  simp [step, hT, hle, hs, he, hrc2, hd, h2]

/-- A timeout past the retry budget marks the project as errored and
falls through to the terminal decrement (lines 179-198). -/
theorem step_exhaust (st : RunState) (j : Job) (added : ℕ) (err : Option String)
    (hT : isTimeoutErr err = true)
    (hrc : config.MAX_RETRIES < st.retryCounts j + 1) :
    step st j (.done added err) =
      terminalUpdate
        { st with pending := st.pending.erase j,
                  retryCounts :=
                    Function.update st.retryCounts j (st.retryCounts j + 1),
                  projectErrors :=
                    Function.update st.projectErrors j.pName true }
        j.pName := by
  simp [step, hT, Nat.not_le.mpr hrc]

/-- A non-timeout result is terminal: it decrements, sets the error flag
when the message is a real error (present, non-empty, not
"No commits found"), and checks completion (lines 184-198). -/
theorem step_plain (st : RunState) (j : Job) (added : ℕ) (err : Option String)
    (hT : isTimeoutErr err = false) :
    step st j (.done added err) =
      terminalUpdate
        { st with pending := st.pending.erase j,
                  projectErrors :=
                    if flagging st j (.done added err)
                    then Function.update st.projectErrors j.pName true
                    else st.projectErrors }
        j.pName := by
  simp [step, flagging, hT]

/-- `terminalUpdate` decrements the project's counter by exactly one. -/
theorem terminalUpdate_shards (st : RunState) (p : String) :
    (terminalUpdate st p).shardsRemaining p = st.shardsRemaining p - 1 := by
  simp [terminalUpdate]

/-- `terminalUpdate` appends a completion mark exactly when the counter
reaches 0 with no recorded error. -/
theorem terminalUpdate_marks (st : RunState) (p : String) :
    (terminalUpdate st p).completedMarks =
      if st.shardsRemaining p - 1 = 0 ∧ st.projectErrors p = false
      then p :: st.completedMarks else st.completedMarks := rfl

/-- With a nonnegative segment width whose total fits inside `e`, the
split loop never caps and emits the arithmetic progression of windows. -/
theorem splitGo_eq_map (e d : ℚ) (hd0 : 0 ≤ d) :
    ∀ (n : ℕ) (cur : ℚ), cur + (n : ℚ) * d ≤ e →
      splitGo e d n cur =
        (List.range n).map
          (fun (i : ℕ) => (cur + (i : ℚ) * d, cur + ((i : ℚ) + 1) * d)) := by
  intro n
  induction n with
  | zero => intro cur h; rfl
  | succ k ih =>
    intro cur h
    have hkd : (0 : ℚ) ≤ (k : ℚ) * d :=
      mul_nonneg (by positivity) hd0
    have hcap : ¬ e < cur + d := by
      push_cast at h
      intro hlt
      nlinarith
    simp only [splitGo, if_neg hcap]
    rw [ih (cur + d) (by push_cast at h ⊢; nlinarith)]
    rw [List.range_succ_eq_map, List.map_cons, List.map_map]
    congr 1
    · norm_num
    · refine List.map_congr_left (fun i hi => ?_)
      simp only [Function.comp_apply, Prod.mk.injEq]
      constructor <;> push_cast <;> ring

/-- Claim C2: a windowed shard below the depth cap whose second timeout
arrives (retry counter, after increment, equal to 2) is split: exactly
`SUB_SHARDS` children are created, forming the arithmetic chain of
sub-windows of `[s, e]`, each at the parent's depth plus 1 with a fresh
retry counter of 0; `shards_remaining` for the project rises by exactly
`SUB_SHARDS - 1` and no terminal decrement occurs (no error flag, no
completion mark). -/
theorem split_on_second_timeout (st : RunState) (j : Job) (s e : ℚ)
    (added : ℕ) (err : Option String)
    (hT : isTimeoutErr err = true)
    (hrc : st.retryCounts j = 1)
    (hs : j.start = some s) (he : j.stop = some e)
    (hd : j.depth < config.MAX_SPLIT_DEPTH)
    (hse : s ≤ e) :
    step st j (.done added err) =
      { st with
        pending := splitChildren j s e ++ st.pending.erase j,
        retryCounts :=
          (splitChildren j s e).foldl (fun f c => Function.update f c 0)
            (Function.update st.retryCounts j (st.retryCounts j + 1)),
        shardsRemaining := Function.update st.shardsRemaining j.pName
          (st.shardsRemaining j.pName + ((config.SUB_SHARDS : ℤ) - 1)) } ∧
    splitChildren j s e =
      (List.range config.SUB_SHARDS).map
        (fun (i : ℕ) =>
          { j with
            start := some (s + (i : ℚ) * ((e - s) / (config.SUB_SHARDS : ℚ))),
            stop := some (s + ((i : ℚ) + 1) * ((e - s) / (config.SUB_SHARDS : ℚ))),
            depth := j.depth + 1 }) ∧
    (splitChildren j s e).length = config.SUB_SHARDS ∧
    (∀ c ∈ splitChildren j s e, c.depth = j.depth + 1 ∧
      (step st j (.done added err)).retryCounts c = 0 ∧
      ∃ cs ce, c.start = some cs ∧ c.stop = some ce ∧
        s ≤ cs ∧ cs ≤ ce ∧ ce ≤ e) ∧
    (step st j (.done added err)).shardsRemaining j.pName =
      st.shardsRemaining j.pName + ((config.SUB_SHARDS : ℤ) - 1) ∧
    (step st j (.done added err)).projectErrors = st.projectErrors ∧
    (step st j (.done added err)).completedMarks = st.completedMarks := by
  have hrc2 : st.retryCounts j + 1 = 2 := by rw [hrc]
  have hstep := step_split st j added err s e hT hs he hrc2 hd
  have hsub : ((config.SUB_SHARDS : ℕ) : ℚ) = 12 := by
    norm_num [config.SUB_SHARDS]
  have hd0 : (0 : ℚ) ≤ (e - s) / (config.SUB_SHARDS : ℚ) := by
    rw [hsub]
    have : (0 : ℚ) ≤ e - s := by linarith
    positivity
  have hfull : s + ((config.SUB_SHARDS : ℕ) : ℚ) *
      ((e - s) / (config.SUB_SHARDS : ℚ)) ≤ e := by
    rw [hsub]
    have h12 : (12 : ℚ) * ((e - s) / 12) = e - s := by ring
    rw [h12]
    linarith
  have hchar : splitChildren j s e =
      (List.range config.SUB_SHARDS).map
        (fun (i : ℕ) =>
          { j with
            start := some (s + (i : ℚ) * ((e - s) / (config.SUB_SHARDS : ℚ))),
            stop := some (s + ((i : ℚ) + 1) * ((e - s) / (config.SUB_SHARDS : ℚ))),
            depth := j.depth + 1 }) := by
    unfold splitChildren
    rw [splitGo_eq_map _ _ hd0 config.SUB_SHARDS s hfull, List.map_map]
    rfl
  refine ⟨hstep, hchar, splitChildren_length j s e, ?_, ?_, ?_, ?_⟩
  · intro c hc
    refine ⟨(splitChildren_fields j s e c hc).2.1, ?_, ?_⟩
    · rw [hstep]
      exact foldl_update_mem 0 _ _ c hc
    · rw [hchar] at hc
      obtain ⟨i, hi, rfl⟩ := List.mem_map.mp hc
      rw [List.mem_range] at hi
      refine ⟨_, _, rfl, rfl, ?_, ?_, ?_⟩
      · have : (0 : ℚ) ≤ (i : ℚ) * ((e - s) / (config.SUB_SHARDS : ℚ)) :=
          mul_nonneg (by positivity) hd0
        linarith
      · have : (0 : ℚ) ≤ (e - s) / (config.SUB_SHARDS : ℚ) := hd0
        nlinarith
      · have hi12 : (i : ℚ) + 1 ≤ 12 := by
          have : (i : ℚ) ≤ 11 := by exact_mod_cast Nat.le_of_lt_succ hi
          linarith
        have h12 : (12 : ℚ) * ((e - s) / (config.SUB_SHARDS : ℚ)) = e - s := by
          rw [hsub]; ring
        nlinarith [hd0, hi12, h12]
  · rw [hstep]
    exact Function.update_same _ _ _
  · rw [hstep]
  · rw [hstep]

/-- Witness for `split_on_second_timeout`: one outstanding C++ shard
over the window `[0, 12]` that has already timed out once. -/
theorem split_on_second_timeout_witness :
    isTimeoutErr (some "TIMED OUT") = true ∧ (0 : ℚ) ≤ 12 ∧
    (step
        { pending := [⟨"p", "u", some 0, some 12, "C++", 0⟩],
          shardsRemaining := fun _ => 1, projectErrors := fun _ => false,
          retryCounts := fun _ => 1, completedMarks := [] }
        ⟨"p", "u", some 0, some 12, "C++", 0⟩
        (MineResult.done 0 (some "TIMED OUT"))).shardsRemaining "p" =
      1 + ((config.SUB_SHARDS : ℤ) - 1) ∧
    (splitChildren ⟨"p", "u", some 0, some 12, "C++", 0⟩ 0 12).length =
      config.SUB_SHARDS :=
  ⟨by decide, by norm_num,
    (split_on_second_timeout
      { pending := [⟨"p", "u", some 0, some 12, "C++", 0⟩],
        shardsRemaining := fun _ => 1, projectErrors := fun _ => false,
        retryCounts := fun _ => 1, completedMarks := [] }
      ⟨"p", "u", some 0, some 12, "C++", 0⟩ 0 12 0 (some "TIMED OUT")
      (by decide) rfl rfl rfl (by decide) (by norm_num)).2.2.2.2.1,
    (split_on_second_timeout
      { pending := [⟨"p", "u", some 0, some 12, "C++", 0⟩],
        shardsRemaining := fun _ => 1, projectErrors := fun _ => false,
        retryCounts := fun _ => 1, completedMarks := [] }
      ⟨"p", "u", some 0, some 12, "C++", 0⟩ 0 12 0 (some "TIMED OUT")
      (by decide) rfl rfl rfl (by decide) (by norm_num)).2.2.1⟩

/-- Claim C3: a shard at the depth cap is never split on a timeout,
whatever the retry count: within the retry budget it is resubmitted
unchanged with only its retry counter bumped (no children, no counter
change, no error); once the incremented counter exceeds `MAX_RETRIES`
it permanently fails — `shards_remaining[p]` drops by exactly 1,
`project_errors[p]` becomes true, and no completion mark is added. -/
theorem depth_cap_no_split (st : RunState) (j : Job) (added : ℕ)
    (err : Option String) (hT : isTimeoutErr err = true)
    (hd : j.depth = config.MAX_SPLIT_DEPTH) :
    (st.retryCounts j + 1 ≤ config.MAX_RETRIES →
      step st j (.done added err) =
        { st with pending := j :: st.pending.erase j,
                  retryCounts :=
                    Function.update st.retryCounts j (st.retryCounts j + 1) }) ∧
    (config.MAX_RETRIES < st.retryCounts j + 1 →
      (step st j (.done added err)).pending = st.pending.erase j ∧
      (step st j (.done added err)).shardsRemaining j.pName =
        st.shardsRemaining j.pName - 1 ∧
      (step st j (.done added err)).projectErrors j.pName = true ∧
      (step st j (.done added err)).completedMarks = st.completedMarks) := by
  constructor
  · intro hrc
    refine step_retry st j added err hT hrc (Or.inr (Or.inr ?_))
    intro hc
    rw [hd] at hc
    exact absurd hc.2 (lt_irrefl _)
  · intro hrc
    rw [step_exhaust st j added err hT hrc]
    simp [terminalUpdate, Function.update_same]

/-- Witness for `depth_cap_no_split`: a depth-3 shard, once with one
prior timeout (retried as-is) and once with three (permanent failure). -/
theorem depth_cap_no_split_witness :
    isTimeoutErr (some "TIMED OUT") = true ∧
    (⟨"p", "u", none, none, "C++", 3⟩ : Job).depth = config.MAX_SPLIT_DEPTH ∧
    step
        { pending := [⟨"p", "u", none, none, "C++", 3⟩],
          shardsRemaining := fun _ => 1, projectErrors := fun _ => false,
          retryCounts := fun _ => 1, completedMarks := [] }
        ⟨"p", "u", none, none, "C++", 3⟩
        (MineResult.done 0 (some "TIMED OUT")) =
      { pending := [⟨"p", "u", none, none, "C++", 3⟩],
        shardsRemaining := fun _ => 1, projectErrors := fun _ => false,
        retryCounts :=
          Function.update (fun _ => 1) ⟨"p", "u", none, none, "C++", 3⟩ 2,
        completedMarks := [] } ∧
    (step
        { pending := [⟨"p", "u", none, none, "C++", 3⟩],
          shardsRemaining := fun _ => 1, projectErrors := fun _ => false,
          retryCounts := fun _ => 3, completedMarks := [] }
        ⟨"p", "u", none, none, "C++", 3⟩
        (MineResult.done 0 (some "TIMED OUT"))).projectErrors "p" = true ∧
    (step
        { pending := [⟨"p", "u", none, none, "C++", 3⟩],
          shardsRemaining := fun _ => 1, projectErrors := fun _ => false,
          retryCounts := fun _ => 3, completedMarks := [] }
        ⟨"p", "u", none, none, "C++", 3⟩
        (MineResult.done 0 (some "TIMED OUT"))).shardsRemaining "p" = 0 :=
  ⟨by decide, rfl,
    (depth_cap_no_split
      { pending := [⟨"p", "u", none, none, "C++", 3⟩],
        shardsRemaining := fun _ => 1, projectErrors := fun _ => false,
        retryCounts := fun _ => 1, completedMarks := [] }
      ⟨"p", "u", none, none, "C++", 3⟩ 0 (some "TIMED OUT")
      (by decide) rfl).1 (by decide),
    ((depth_cap_no_split
      { pending := [⟨"p", "u", none, none, "C++", 3⟩],
        shardsRemaining := fun _ => 1, projectErrors := fun _ => false,
        retryCounts := fun _ => 3, completedMarks := [] }
      ⟨"p", "u", none, none, "C++", 3⟩ 0 (some "TIMED OUT")
      (by decide) rfl).2 (by decide)).2.2.1,
    by decide⟩

/-- Claim C10: a shard with no time window (both bounds `None`, as
planned for every non-C++ project) is never split on a timeout at any
retry count or depth — only retried, and past the retry budget it
permanently fails with the error flag set; and the planner indeed emits
exactly one windowless depth-0 shard for every non-C++ project. -/
theorem windowless_never_splits (st : RunState) (j : Job) (added : ℕ)
    (err : Option String) (hT : isTimeoutErr err = true)
    (hs : j.start = none) (_hstop : j.stop = none) :
    (st.retryCounts j + 1 ≤ config.MAX_RETRIES →
      step st j (.done added err) =
        { st with pending := j :: st.pending.erase j,
                  retryCounts :=
                    Function.update st.retryCounts j (st.retryCounts j + 1) }) ∧
    (config.MAX_RETRIES < st.retryCounts j + 1 →
      (step st j (.done added err)).pending = st.pending.erase j ∧
      (step st j (.done added err)).shardsRemaining j.pName =
        st.shardsRemaining j.pName - 1 ∧
      (step st j (.done added err)).projectErrors j.pName = true ∧
      (step st j (.done added err)).completedMarks = st.completedMarks) ∧
    (∀ (gh : Option (String × String)) (lk : Option ℕ) (now : ℚ)
        (p : Project) (raw : String), p.language ≠ "C++" →
        firstUrl p = some raw → raw ≠ "" →
        (prepare_job gh lk now p).2 =
          [⟨p.name, raw, none, none, p.language, 0⟩]) := by
  refine ⟨?_, ?_, ?_⟩
  · intro hrc
    exact step_retry st j added err hT hrc (Or.inl hs)
  · intro hrc
    rw [step_exhaust st j added err hT hrc]
    simp [terminalUpdate, Function.update_same]
  · intro gh lk now p raw hcpp hurl hne
    simp [prepare_job, hurl, hne, hcpp]

/-- Witness for `windowless_never_splits`: a windowless Java shard at
retry count 1 with a second timeout is only retried — counters and flag
untouched — and the planner output of a Java project is the single
windowless shard. -/
theorem windowless_never_splits_witness :
    isTimeoutErr (some "TIMED OUT") = true ∧
    step
        { pending := [⟨"q", "u", none, none, "Java", 0⟩],
          shardsRemaining := fun _ => 1, projectErrors := fun _ => false,
          retryCounts := fun _ => 1, completedMarks := [] }
        ⟨"q", "u", none, none, "Java", 0⟩
        (MineResult.done 0 (some "TIMED OUT")) =
      { pending := [⟨"q", "u", none, none, "Java", 0⟩],
        shardsRemaining := fun _ => 1, projectErrors := fun _ => false,
        retryCounts :=
          Function.update (fun _ => 1) ⟨"q", "u", none, none, "Java", 0⟩ 2,
        completedMarks := [] } ∧
    (prepare_job none none 5 ⟨"q", some "u", none, "Java"⟩).2 =
      [⟨"q", "u", none, none, "Java", 0⟩] :=
  ⟨by decide,
    (windowless_never_splits
      { pending := [⟨"q", "u", none, none, "Java", 0⟩],
        shardsRemaining := fun _ => 1, projectErrors := fun _ => false,
        retryCounts := fun _ => 1, completedMarks := [] }
      ⟨"q", "u", none, none, "Java", 0⟩ 0 (some "TIMED OUT")
      (by decide) rfl rfl).1 (by decide),
    (windowless_never_splits
      { pending := [⟨"q", "u", none, none, "Java", 0⟩],
        shardsRemaining := fun _ => 1, projectErrors := fun _ => false,
        retryCounts := fun _ => 1, completedMarks := [] }
      ⟨"q", "u", none, none, "Java", 0⟩ 0 (some "TIMED OUT")
      (by decide) rfl rfl).2.2 none none 5 ⟨"q", some "u", none, "Java"⟩ "u"
      (by decide) rfl (by decide)⟩

/-- Claim C8 counterexample: two outcomes whose error is present and not
a timeout do NOT set `project_errors[p]`: the message
"No commits found", which the controller explicitly exempts
(repo_miner.py line 187), and the empty message "" — `str(e)` of a
message-less exception — which Python's truthiness test at the same
line short-circuits on.  Both contradict the claim that every
non-timeout error marks the project as errored. -/
theorem no_commits_error_not_flagged :
    (step (initState [⟨"p", "u", none, none, "Java", 0⟩,
                      ⟨"p", "u", none, none, "Java", 0⟩])
        ⟨"p", "u", none, none, "Java", 0⟩
        (MineResult.done 0 (some "No commits found"))).projectErrors "p" =
      false ∧
    (step (initState [⟨"p", "u", none, none, "Java", 0⟩,
                      ⟨"p", "u", none, none, "Java", 0⟩])
        ⟨"p", "u", none, none, "Java", 0⟩
        (MineResult.done 0 (some ""))).projectErrors "p" = false ∧
    isTimeoutErr (some "No commits found") = false ∧
    isTimeoutErr (some "") = false ∧
    (some "No commits found" ≠ (none : Option String)) ∧
    (some "" ≠ (none : Option String)) := by
  refine ⟨by decide, by decide, by decide, by decide, by decide, by decide⟩

/-- Claim C8 amended: a result whose error is not a timeout is terminal
— the shard is never retried nor split, its job leaves the outstanding
set, no retry counter changes, and `shards_remaining[p]` drops by
exactly 1.  If the error is present with a non-empty message (truthy in
Python) that does not contain "No commits found", `project_errors[p]`
is set and the project cannot be marked completed by this event; an
absent error, an empty (falsy) message, or one containing
"No commits found" leaves the error flags untouched. -/
theorem nontimeout_error_terminal (st : RunState) (j : Job) (added : ℕ)
    (err : Option String) (hT : isTimeoutErr err = false) :
    (step st j (.done added err)).pending = st.pending.erase j ∧
    (step st j (.done added err)).retryCounts = st.retryCounts ∧
    (step st j (.done added err)).shardsRemaining j.pName =
      st.shardsRemaining j.pName - 1 ∧
    (∀ msg, err = some msg → msg ≠ "" →
      strContains msg "No commits found" = false →
      (step st j (.done added err)).projectErrors j.pName = true ∧
      (step st j (.done added err)).completedMarks = st.completedMarks) ∧
    ((err = none ∨ ∃ msg, err = some msg ∧
        (msg = "" ∨ strContains msg "No commits found" = true)) →
      (step st j (.done added err)).projectErrors = st.projectErrors) := by
  rw [step_plain st j added err hT]
  refine ⟨rfl, rfl, by simp [terminalUpdate, Function.update_same], ?_, ?_⟩
  · intro msg hmsg hemp hnc
    subst hmsg
    have hTc : strContains msg "TIMED OUT" = false := hT
    have hf : flagging st j (.done added (some msg)) = true := by
      simp [flagging, hT, hTc, hnc, hemp]
    simp [terminalUpdate, Function.update_same, hf]
  · intro hbenign
    have hf : flagging st j (.done added err) = false := by
      rcases hbenign with h | ⟨msg, hmsg, hcase⟩
      · subst h; rfl
      · subst hmsg
        rcases hcase with h | h
        · subst h
          have h1 : isTimeoutErr (some "") = false := by decide
          simp [flagging, h1]
        · simp [flagging, hT, h]
    simp [terminalUpdate, hf]

/-- Witness for `nontimeout_error_terminal` at a concrete invalid-URL
error: the flag is set and the shard is terminal. -/
theorem nontimeout_error_terminal_witness :
    isTimeoutErr (some "Skipped: Invalid or missing URL") = false ∧
    strContains "Skipped: Invalid or missing URL" "No commits found" = false ∧
    (step
        { pending := [⟨"p", "u", none, none, "Java", 0⟩],
          shardsRemaining := fun _ => 2, projectErrors := fun _ => false,
          retryCounts := fun _ => 0, completedMarks := [] }
        ⟨"p", "u", none, none, "Java", 0⟩
        (MineResult.done 0 (some "Skipped: Invalid or missing URL"))).pending =
      [] ∧
    (step
        { pending := [⟨"p", "u", none, none, "Java", 0⟩],
          shardsRemaining := fun _ => 2, projectErrors := fun _ => false,
          retryCounts := fun _ => 0, completedMarks := [] }
        ⟨"p", "u", none, none, "Java", 0⟩
        (MineResult.done 0
          (some "Skipped: Invalid or missing URL"))).projectErrors "p" =
      true ∧
    (step
        { pending := [⟨"p", "u", none, none, "Java", 0⟩],
          shardsRemaining := fun _ => 2, projectErrors := fun _ => false,
          retryCounts := fun _ => 0, completedMarks := [] }
        ⟨"p", "u", none, none, "Java", 0⟩
        (MineResult.done 0
          (some "Skipped: Invalid or missing URL"))).shardsRemaining "p" =
      1 :=
  ⟨by decide, by decide,
    (nontimeout_error_terminal
      { pending := [⟨"p", "u", none, none, "Java", 0⟩],
        shardsRemaining := fun _ => 2, projectErrors := fun _ => false,
        retryCounts := fun _ => 0, completedMarks := [] }
      ⟨"p", "u", none, none, "Java", 0⟩ 0
      (some "Skipped: Invalid or missing URL") (by decide)).1,
    ((nontimeout_error_terminal
      { pending := [⟨"p", "u", none, none, "Java", 0⟩],
        shardsRemaining := fun _ => 2, projectErrors := fun _ => false,
        retryCounts := fun _ => 0, completedMarks := [] }
      ⟨"p", "u", none, none, "Java", 0⟩ 0
      (some "Skipped: Invalid or missing URL") (by decide)).2.2.2.1
      "Skipped: Invalid or missing URL" rfl (by decide) (by decide)).1,
    by decide⟩

/-- Membership in a conditionally extended mark list, for a name other
than the one appended. -/
theorem mem_ite_cons {p q : String} (hpq : p ≠ q) (c : Prop) [Decidable c]
    (l : List String) : (p ∈ (if c then q :: l else l)) ↔ p ∈ l := by
  split
  · simp [List.mem_cons, hpq]
  · exact Iff.rfl

/-- An event for a job of another project leaves all of project `p`'s
bookkeeping untouched: counter, error flag, outstanding count, marks
membership, and the retry counters of `p`'s jobs. -/
theorem step_frame (st : RunState) (j : Job) (r : MineResult) (p : String)
    (hne : j.pName ≠ p) :
    (step st j r).shardsRemaining p = st.shardsRemaining p ∧
    (step st j r).projectErrors p = st.projectErrors p ∧
    pendingCount (step st j r) p = pendingCount st p ∧
    (p ∈ (step st j r).completedMarks ↔ p ∈ st.completedMarks) ∧
    (∀ c : Job, c.pName = p → (step st j r).retryCounts c = st.retryCounts c) := by
  have hpj : p ≠ j.pName := Ne.symm hne
  have hbeq : (j.pName == p) = false := by simp [hne]
  have hcount : (st.pending.erase j).countP (fun x => x.pName == p) =
      st.pending.countP (fun x => x.pName == p) :=
    countP_erase_of_neg _ j hbeq st.pending
  have hcj : ∀ c : Job, c.pName = p → c ≠ j :=
    fun c hc hcontra => hne (by rw [← hcontra, hc])
  cases r with
  | stopped =>
    rw [step_stopped]
    exact ⟨rfl, rfl, hcount, Iff.rfl, fun c _ => rfl⟩
  | done added err =>
    by_cases hT : isTimeoutErr err = true
    · by_cases hrc : st.retryCounts j + 1 ≤ config.MAX_RETRIES
      · have hretry : step st j (.done added err) =
            { st with pending := j :: st.pending.erase j,
                      retryCounts := Function.update st.retryCounts j
                        (st.retryCounts j + 1) } →
            (step st j (.done added err)).shardsRemaining p =
              st.shardsRemaining p ∧
            (step st j (.done added err)).projectErrors p =
              st.projectErrors p ∧
            pendingCount (step st j (.done added err)) p = pendingCount st p ∧
            (p ∈ (step st j (.done added err)).completedMarks ↔
              p ∈ st.completedMarks) ∧
            (∀ c : Job, c.pName = p →
              (step st j (.done added err)).retryCounts c =
                st.retryCounts c) := by
          intro heq
          rw [heq]
          refine ⟨rfl, rfl, ?_, Iff.rfl, ?_⟩
          · show ((j :: st.pending.erase j).countP fun x => x.pName == p) = _
            rw [List.countP_cons_of_neg _ _ (by simp [hbeq]), hcount]
            rfl
          · intro c hc
            exact Function.update_noteq (hcj c hc) _ _
        rcases hstart : j.start with _ | s
        · exact hretry (step_retry st j added err hT hrc (Or.inl hstart))
        · rcases hstop2 : j.stop with _ | e
          · exact hretry
              (step_retry st j added err hT hrc (Or.inr (Or.inl hstop2)))
          · by_cases hcond : st.retryCounts j + 1 = 2 ∧
                j.depth < config.MAX_SPLIT_DEPTH
            · rw [step_split st j added err s e hT hstart hstop2
                hcond.1 hcond.2]
              refine ⟨Function.update_noteq hpj _ _, rfl, ?_, Iff.rfl, ?_⟩
              · show ((splitChildren j s e ++ st.pending.erase j).countP
                  fun x => x.pName == p) = _
                rw [List.countP_append]
                have hzero : ((splitChildren j s e).countP
                    fun x => x.pName == p) = 0 := by
                  rw [List.countP_eq_zero]
                  intro c hc
                  have := (splitChildren_fields j s e c hc).1
                  simp [this, hbeq]
                rw [hzero, hcount]
                simp [pendingCount]
              · intro c hc
                have hnotmem : c ∉ splitChildren j s e := by
                  intro hmem
                  have := (splitChildren_fields j s e c hmem).1
                  exact hne (by rw [← this, hc])
                show (splitChildren j s e).foldl
                    (fun f c => Function.update f c 0)
                    (Function.update st.retryCounts j (st.retryCounts j + 1))
                    c = st.retryCounts c
                rw [foldl_update_not_mem _ _ _ _ hnotmem,
                  Function.update_noteq (hcj c hc)]
            · exact hretry
                (step_retry st j added err hT hrc (Or.inr (Or.inr hcond)))
      · rw [step_exhaust st j added err hT (Nat.not_le.mp hrc)]
        refine ⟨?_, ?_, hcount, ?_, ?_⟩
        · show Function.update _ j.pName _ p = _
          rw [Function.update_noteq hpj]
        · show Function.update st.projectErrors j.pName true p = _
          rw [Function.update_noteq hpj]
        · rw [terminalUpdate_marks]
          split
          · simp [List.mem_cons, hpj]
          · exact Iff.rfl
        · intro c hc
          exact Function.update_noteq (hcj c hc) _ _
    · have hT' : isTimeoutErr err = false := by
        cases h : isTimeoutErr err
        · rfl
        · exact absurd h hT
      rw [step_plain st j added err hT']
      refine ⟨?_, ?_, hcount, ?_, fun c _ => rfl⟩
      · show Function.update _ j.pName _ p = _
        rw [Function.update_noteq hpj]
      · show (if flagging st j (.done added err)
            then Function.update st.projectErrors j.pName true
            else st.projectErrors) p = _
        by_cases hf : flagging st j (.done added err) = true
        · rw [if_pos hf, Function.update_noteq hpj]
        · rw [if_neg hf]
      · rw [terminalUpdate_marks]
        exact mem_ite_cons hpj _ _

/-- The outstanding count of `p` is positive while one of its jobs is
outstanding. -/
theorem pendingCount_pos (st : RunState) (j : Job) (p : String)
    (hp : j.pName = p) (hmem : j ∈ st.pending) : 0 < pendingCount st p := by
  rw [pendingCount, List.countP_pos_iff]
  exact ⟨j, hmem, by simp [hp]⟩

/-- Erasing an outstanding job of `p` lowers the outstanding count by
one. -/
theorem pendingCount_erase (st : RunState) (j : Job) (p : String)
    (hp : j.pName = p) (hmem : j ∈ st.pending) :
    (st.pending.erase j).countP (fun x => x.pName == p) + 1 =
      pendingCount st p :=
  countP_erase_of_pos _ j (by simp [hp]) st.pending hmem

/-- All split children count towards the parent's project. -/
theorem countP_splitChildren (j : Job) (s e : ℚ) (p : String)
    (hp : j.pName = p) :
    (splitChildren j s e).countP (fun x => x.pName == p) =
      config.SUB_SHARDS := by
  have h : (splitChildren j s e).countP (fun x => x.pName == p) =
      (splitChildren j s e).length :=
    List.countP_eq_length.mpr (fun c hc => by
      simp [(splitChildren_fields j s e c hc).1, hp])
  rw [h, splitChildren_length]

/-- Classification of one event on a job of project `p`: it is a drop
(`None` result), a non-terminal timeout (retry or split — no flag, no
mark, balance between counter and outstanding count preserved, count
stays positive), or a terminal decision (counter and count both drop by
one, the error flag absorbs `flagging`, and a completion mark appears
exactly when the counter hits 0 with no error). -/
theorem step_p_cases (st : RunState) (j : Job) (r : MineResult) (p : String)
    (hp : j.pName = p) (hmem : j ∈ st.pending) :
    (r = MineResult.stopped ∧
      step st j r = { st with pending := st.pending.erase j }) ∨
    (flagging st j r = false ∧ r ≠ MineResult.stopped ∧
      (step st j r).shardsRemaining p - st.shardsRemaining p =
        (pendingCount (step st j r) p : ℤ) - (pendingCount st p : ℤ) ∧
      0 < pendingCount (step st j r) p ∧
      (step st j r).projectErrors p = st.projectErrors p ∧
      (step st j r).completedMarks = st.completedMarks) ∨
    (r ≠ MineResult.stopped ∧
      (step st j r).shardsRemaining p = st.shardsRemaining p - 1 ∧
      pendingCount (step st j r) p + 1 = pendingCount st p ∧
      (step st j r).projectErrors p =
        (st.projectErrors p || flagging st j r) ∧
      (step st j r).completedMarks =
        (if st.shardsRemaining p - 1 = 0 ∧
            (st.projectErrors p || flagging st j r) = false
         then p :: st.completedMarks else st.completedMarks)) := by
  have hpc := pendingCount_erase st j p hp hmem
  have hpos := pendingCount_pos st j p hp hmem
  cases r with
  | stopped => exact Or.inl ⟨rfl, step_stopped st j⟩
  | done added err =>
    by_cases hT : isTimeoutErr err = true
    · by_cases hrc : st.retryCounts j + 1 ≤ config.MAX_RETRIES
      · -- non-terminal timeout: retry or split
        have hflag : flagging st j (.done added err) = false := by
          simp only [flagging, hT, if_pos]
          simp only [decide_eq_false_iff_not, not_lt]
          exact hrc
        have hretry : step st j (.done added err) =
            { st with pending := j :: st.pending.erase j,
                      retryCounts := Function.update st.retryCounts j
                        (st.retryCounts j + 1) } →
            flagging st j (.done added err) = false ∧
            (MineResult.done added err ≠ MineResult.stopped) ∧
            (step st j (.done added err)).shardsRemaining p -
              st.shardsRemaining p =
              (pendingCount (step st j (.done added err)) p : ℤ) -
                (pendingCount st p : ℤ) ∧
            0 < pendingCount (step st j (.done added err)) p ∧
            (step st j (.done added err)).projectErrors p =
              st.projectErrors p ∧
            (step st j (.done added err)).completedMarks =
              st.completedMarks := by
          intro heq
          rw [heq]
          have hcnt : pendingCount
              { st with pending := j :: st.pending.erase j,
                        retryCounts := Function.update st.retryCounts j
                          (st.retryCounts j + 1) } p = pendingCount st p := by
            show ((j :: st.pending.erase j).countP fun x => x.pName == p) = _
            rw [List.countP_cons_of_pos _ _ (by simp [hp])]
            exact hpc
          rw [hcnt]
          exact ⟨hflag, by simp, by ring, by rw [hcnt] at *; omega, rfl, rfl⟩
        rcases hstart : j.start with _ | s
        · exact Or.inr (Or.inl
            (hretry (step_retry st j added err hT hrc (Or.inl hstart))))
        · rcases hstop2 : j.stop with _ | e
          · exact Or.inr (Or.inl (hretry
              (step_retry st j added err hT hrc (Or.inr (Or.inl hstop2)))))
          · by_cases hcond : st.retryCounts j + 1 = 2 ∧
                j.depth < config.MAX_SPLIT_DEPTH
            · refine Or.inr (Or.inl ?_)
              rw [step_split st j added err s e hT hstart hstop2
                hcond.1 hcond.2]
              have hcnt : pendingCount
                  { st with
                    pending := splitChildren j s e ++ st.pending.erase j,
                    retryCounts := (splitChildren j s e).foldl
                      (fun f c => Function.update f c 0)
                      (Function.update st.retryCounts j
                        (st.retryCounts j + 1)),
                    shardsRemaining := Function.update st.shardsRemaining
                      j.pName (st.shardsRemaining j.pName +
                        ((config.SUB_SHARDS : ℤ) - 1)) } p =
                  config.SUB_SHARDS + (pendingCount st p - 1) := by
                show ((splitChildren j s e ++ st.pending.erase j).countP
                  fun x => x.pName == p) = _
                rw [List.countP_append, countP_splitChildren j s e p hp]
                omega
              rw [hcnt]
              refine ⟨hflag, by simp, ?_, ?_, rfl, rfl⟩
              · show Function.update st.shardsRemaining j.pName
                  (st.shardsRemaining j.pName +
                    ((config.SUB_SHARDS : ℤ) - 1)) p - _ = _
                rw [hp, Function.update_same]
                push_cast
                have : (config.SUB_SHARDS : ℤ) = 12 := by decide
                omega
              · have : (config.SUB_SHARDS : ℕ) = 12 := by decide
                omega
            · exact Or.inr (Or.inl (hretry
                (step_retry st j added err hT hrc (Or.inr (Or.inr hcond)))))
      · -- exhausted timeout: terminal with the flag set
        have hflag : flagging st j (.done added err) = true := by
          simp only [flagging, hT, if_pos]
          simp only [decide_eq_true_eq]
          exact Nat.not_le.mp hrc
        refine Or.inr (Or.inr ⟨by simp, ?_, ?_, ?_, ?_⟩)
        · rw [step_exhaust st j added err hT (Nat.not_le.mp hrc)]
          show Function.update _ j.pName _ p = _
          rw [hp, Function.update_same]
        · rw [step_exhaust st j added err hT (Nat.not_le.mp hrc)]
          exact hpc
        · rw [step_exhaust st j added err hT (Nat.not_le.mp hrc), hflag]
          show Function.update st.projectErrors j.pName true p = _
          rw [hp, Function.update_same, Bool.or_true]
        · rw [step_exhaust st j added err hT (Nat.not_le.mp hrc),
            terminalUpdate_marks, hflag]
          simp [hp, Function.update_same]
    · -- non-timeout: terminal
      have hT' : isTimeoutErr err = false := by
        cases h : isTimeoutErr err
        · rfl
        · exact absurd h hT
      refine Or.inr (Or.inr ⟨by simp, ?_, ?_, ?_, ?_⟩)
      · rw [step_plain st j added err hT']
        show Function.update _ j.pName _ p = _
        rw [hp, Function.update_same]
      · rw [step_plain st j added err hT']
        exact hpc
      · rw [step_plain st j added err hT']
        show (if flagging st j (.done added err)
            then Function.update st.projectErrors j.pName true
            else st.projectErrors) p = _
        by_cases hf : flagging st j (.done added err) = true
        · rw [hf, if_pos rfl, hp, Function.update_same, Bool.or_true]
        · have hf' : flagging st j (.done added err) = false := by
            cases h : flagging st j (.done added err)
            · rfl
            · exact absurd h hf
          rw [hf', if_neg (by simp), Bool.or_false]
      · rw [step_plain st j added err hT', terminalUpdate_marks]
        by_cases hf : flagging st j (.done added err) = true
        · rw [hf]
          simp [hp, Function.update_same]
        · have hf' : flagging st j (.done added err) = false := by
            cases h : flagging st j (.done added err)
            · rfl
            · exact absurd h hf
          rw [hf']
          simp [hp]

/-- Once no jobs of `p` are outstanding, no later event concerns `p`:
its outstanding count stays 0, its marks membership never changes, and
the rest of the trace has no drops and no flaggings for `p`. -/
theorem run_frozen (p : String) :
    ∀ (t : List (Job × MineResult)) (st : RunState),
      validB st t = true → pendingCount st p = 0 →
      pendingCount (runTrace st t) p = 0 ∧
      (p ∈ (runTrace st t).completedMarks ↔ p ∈ st.completedMarks) ∧
      noDropsB p t = true ∧ noFlagsB p st t = true := by
  intro t
  induction t with
  | nil => intro st _ h0; exact ⟨h0, Iff.rfl, rfl, rfl⟩
  | cons ev rest ih =>
    obtain ⟨j, r⟩ := ev
    intro st hv h0
    have hv' : decide (j ∈ st.pending) = true ∧
        validB (step st j r) rest = true := by
      simpa [validB, Bool.and_eq_true] using hv
    have hmem : j ∈ st.pending := of_decide_eq_true hv'.1
    have hne : j.pName ≠ p := by
      intro hcontra
      have := pendingCount_pos st j p hcontra hmem
      omega
    obtain ⟨-, -, hcnt, hmarks, -⟩ := step_frame st j r p hne
    obtain ⟨h1, h2, h3, h4⟩ := ih (step st j r) hv'.2 (by rw [hcnt]; exact h0)
    refine ⟨h1, h2.trans hmarks, ?_, ?_⟩
    · show ((!(j.pName == p) || !(r == MineResult.stopped)) &&
        noDropsB p rest) = true
      rw [h3]
      simp [hne]
    · show ((!(j.pName == p) || !flagging st j r) &&
        noFlagsB p (step st j r) rest) = true
      rw [h4]
      simp [hne]

/-- While the counter for `p` strictly exceeds its outstanding count, no
completion mark for `p` can ever be appended. -/
theorem run_no_mark_of_deficit (p : String) :
    ∀ (t : List (Job × MineResult)) (st : RunState),
      validB st t = true →
      (pendingCount st p : ℤ) < st.shardsRemaining p →
      (p ∈ (runTrace st t).completedMarks ↔ p ∈ st.completedMarks) := by
  intro t
  induction t with
  | nil => intro st _ _; exact Iff.rfl
  | cons ev rest ih =>
    obtain ⟨j, r⟩ := ev
    intro st hv hdef
    have hv' : decide (j ∈ st.pending) = true ∧
        validB (step st j r) rest = true := by
      simpa [validB, Bool.and_eq_true] using hv
    have hmem : j ∈ st.pending := of_decide_eq_true hv'.1
    by_cases hne : j.pName = p
    · obtain ⟨h1, h2⟩ | ⟨-, -, hbal, -, -, hmk⟩ |
          ⟨-, hsr, hpc, -, hmk⟩ := step_p_cases st j r p hne hmem
      · have hpos := pendingCount_pos st j p hne hmem
        have hpc' : pendingCount (step st j r) p + 1 = pendingCount st p := by
          rw [h2]
          exact pendingCount_erase st j p hne hmem
        have hsr' : (step st j r).shardsRemaining p = st.shardsRemaining p := by
          rw [h2]
        refine (ih (step st j r) hv'.2 ?_).trans (by rw [h2])
        rw [hsr']
        omega
      · refine (ih (step st j r) hv'.2 (by omega)).trans (by rw [hmk])
      · have hpos := pendingCount_pos st j p hne hmem
        have hcond : ¬ (st.shardsRemaining p - 1 = 0 ∧
            (st.projectErrors p || flagging st j r) = false) := by
          intro hc
          omega
        refine (ih (step st j r) hv'.2 ?_).trans
          (by rw [hmk, if_neg hcond])
        omega
    · obtain ⟨hsr, -, hcnt, hmarks, -⟩ := step_frame st j r p hne
      refine (ih (step st j r) hv'.2 ?_).trans hmarks
      rw [hsr, hcnt]
      exact hdef

/-- Once `project_errors[p]` is set it stays set, and no completion mark
for `p` can ever be appended afterwards. -/
theorem run_no_mark_of_error (p : String) :
    ∀ (t : List (Job × MineResult)) (st : RunState),
      validB st t = true → st.projectErrors p = true →
      (p ∈ (runTrace st t).completedMarks ↔ p ∈ st.completedMarks) := by
  intro t
  induction t with
  | nil => intro st _ _; exact Iff.rfl
  | cons ev rest ih =>
    obtain ⟨j, r⟩ := ev
    intro st hv herr
    have hv' : decide (j ∈ st.pending) = true ∧
        validB (step st j r) rest = true := by
      simpa [validB, Bool.and_eq_true] using hv
    have hmem : j ∈ st.pending := of_decide_eq_true hv'.1
    by_cases hne : j.pName = p
    · obtain ⟨h1, h2⟩ | ⟨-, -, -, -, herr', hmk⟩ |
          ⟨-, -, -, herr', hmk⟩ := step_p_cases st j r p hne hmem
      · refine (ih (step st j r) hv'.2 (by rw [h2]; exact herr)).trans
          (by rw [h2])
      · refine (ih (step st j r) hv'.2 (by rw [herr']; exact herr)).trans
          (by rw [hmk])
      · have hcond : ¬ (st.shardsRemaining p - 1 = 0 ∧
            (st.projectErrors p || flagging st j r) = false) := by
          intro hc
          rw [herr] at hc
          simp at hc
        refine (ih (step st j r) hv'.2
          (by rw [herr', herr]; simp)).trans (by rw [hmk, if_neg hcond])
    · obtain ⟨-, herr', -, hmarks, -⟩ := step_frame st j r p hne
      refine (ih (step st j r) hv'.2 (by rw [herr']; exact herr)).trans hmarks

/-- Generalized completion characterization: starting from a state whose
counter for `p` matches its outstanding count and whose error flag for
`p` is clear, `p` ends up in the completion marks iff it was already
there, or it had outstanding work and every event for `p` in the trace
was a benign terminal decision (no stop-drops, no error flaggings) with
all of `p`'s work consumed by the end. -/
theorem marks_run_iff (p : String) :
    ∀ (t : List (Job × MineResult)) (st : RunState),
      validB st t = true →
      st.shardsRemaining p = (pendingCount st p : ℤ) →
      st.projectErrors p = false →
      (p ∈ (runTrace st t).completedMarks ↔
        (p ∈ st.completedMarks ∨
          (0 < pendingCount st p ∧ noDropsB p t = true ∧
            noFlagsB p st t = true ∧
            pendingCount (runTrace st t) p = 0))) := by
  intro t
  induction t with
  | nil =>
    intro st _ hbal herr
    show p ∈ st.completedMarks ↔ _
    constructor
    · exact Or.inl
    · rintro (h | ⟨h1, -, -, h4⟩)
      · exact h
      · simp only [runTrace] at h4
        omega
  | cons ev rest ih =>
    obtain ⟨j, r⟩ := ev
    intro st hv hbal herr
    have hv' : decide (j ∈ st.pending) = true ∧
        validB (step st j r) rest = true := by
      simpa [validB, Bool.and_eq_true] using hv
    have hmem : j ∈ st.pending := of_decide_eq_true hv'.1
    by_cases hne : j.pName = p
    · have hpos := pendingCount_pos st j p hne hmem
      obtain ⟨hr, h2⟩ | ⟨hflag, hnstop, hbal2, hpos2, herr2, hmk⟩ |
          ⟨hnstop, hsr, hpc, herr3, hmk⟩ := step_p_cases st j r p hne hmem
      · -- drop: the balance breaks and the project can never complete
        subst hr
        have hpc' : pendingCount (step st j MineResult.stopped) p + 1 =
            pendingCount st p := by
          rw [h2]
          exact pendingCount_erase st j p hne hmem
        have hsr' : (step st j MineResult.stopped).shardsRemaining p =
            st.shardsRemaining p := by rw [h2]
        have hno := run_no_mark_of_deficit p rest
          (step st j MineResult.stopped) hv'.2 (by rw [hsr']; omega)
        have hmarks2 : (step st j MineResult.stopped).completedMarks =
            st.completedMarks := by rw [h2]
        have hdrop : noDropsB p ((j, MineResult.stopped) :: rest) = false := by
          simp [noDropsB, hne]
        refine (hno.trans (by rw [hmarks2])).trans ?_
        rw [hdrop]
        simp
      · -- retry or split: nothing for `p` is decided yet
        have hbal' : (step st j r).shardsRemaining p =
            (pendingCount (step st j r) p : ℤ) := by omega
        have herr' : (step st j r).projectErrors p = false := by
          rw [herr2]; exact herr
        refine (ih (step st j r) hv'.2 hbal' herr').trans ?_
        refine or_congr (by rw [hmk]) (and_congr ?_ (and_congr ?_
          (and_congr ?_ Iff.rfl)))
        · exact iff_of_true hpos2 hpos
        · show noDropsB p rest = true ↔
            noDropsB p ((j, r) :: rest) = true
          simp [noDropsB, hne, hnstop]
        · show noFlagsB p (step st j r) rest = true ↔
            noFlagsB p st ((j, r) :: rest) = true
          simp [noFlagsB, hne, hflag]
      · -- terminal decision
        by_cases hflag : flagging st j r = true
        · -- flagged: the error is sticky, no completion ever
          have herr'' : (step st j r).projectErrors p = true := by
            rw [herr3, herr, hflag]
            rfl
          have hmk' : (step st j r).completedMarks = st.completedMarks := by
            rw [hmk, if_neg]
            intro hc
            rw [herr, hflag] at hc
            simp at hc
          have hno := run_no_mark_of_error p rest (step st j r) hv'.2 herr''
          have hflagsB : noFlagsB p st ((j, r) :: rest) = false := by
            simp [noFlagsB, hne, hflag]
          refine (hno.trans (by rw [hmk'])).trans ?_
          rw [hflagsB]
          simp
        · have hflag' : flagging st j r = false := by
            cases h : flagging st j r
            · rfl
            · exact absurd h hflag
          have herr' : (step st j r).projectErrors p = false := by
            rw [herr3, herr, hflag']
            rfl
          by_cases h0 : pendingCount (step st j r) p = 0
          · -- last shard of `p` succeeded: the mark is appended now
            have hmk' : (step st j r).completedMarks =
                p :: st.completedMarks := by
              rw [hmk, if_pos]
              refine ⟨by omega, by simp [herr, hflag']⟩
            obtain ⟨hfin, hmarks2, hdrops, hflags⟩ :=
              run_frozen p rest (step st j r) hv'.2 h0
            constructor
            · intro _
              refine Or.inr ⟨hpos, ?_, ?_, hfin⟩
              · show ((!(j.pName == p) || !(r == MineResult.stopped)) &&
                  noDropsB p rest) = true
                simp [hne, hnstop, hdrops]
              · show ((!(j.pName == p) || !flagging st j r) &&
                  noFlagsB p (step st j r) rest) = true
                simp [hne, hflag', hflags]
            · intro _
              refine hmarks2.mpr ?_
              rw [hmk']
              exact List.mem_cons_self p _
          · -- `p` still has outstanding shards: recurse
            have hmk' : (step st j r).completedMarks = st.completedMarks := by
              rw [hmk, if_neg]
              intro hc
              omega
            have hbal' : (step st j r).shardsRemaining p =
                (pendingCount (step st j r) p : ℤ) := by omega
            refine (ih (step st j r) hv'.2 hbal' herr').trans ?_
            refine or_congr (by rw [hmk']) (and_congr ?_ (and_congr ?_
              (and_congr ?_ Iff.rfl)))
            · exact iff_of_true (by omega) hpos
            · show noDropsB p rest = true ↔
                noDropsB p ((j, r) :: rest) = true
              simp [noDropsB, hne, hnstop]
            · show noFlagsB p (step st j r) rest = true ↔
                noFlagsB p st ((j, r) :: rest) = true
              simp [noFlagsB, hne, hflag']
    · obtain ⟨hsr, herr2, hcnt, hmarks, -⟩ := step_frame st j r p hne
      refine (ih (step st j r) hv'.2 (by rw [hsr, hcnt]; exact hbal)
        (by rw [herr2]; exact herr)).trans ?_
      refine or_congr hmarks (and_congr (by rw [hcnt]) (and_congr ?_
        (and_congr ?_ Iff.rfl)))
      · show noDropsB p rest = true ↔ noDropsB p ((j, r) :: rest) = true
        simp [noDropsB, hne]
      · show noFlagsB p (step st j r) rest = true ↔
          noFlagsB p st ((j, r) :: rest) = true
        simp [noFlagsB, hne]

/-- Claim C1 counterexample: a project whose only shard reaches a
terminal outcome carrying the error "No commits found" — a non-success
outcome in the spec's taxonomy, since its `error` field is present — is
nevertheless marked completed: the controller exempts that message from
the error flag, decrements the counter to 0 with `project_errors` still
false, and calls `mark_project_as_completed`.  The same happens for a
shard ending with the empty error message "" (`str(e)` of a message-less
exception), which Python's truthiness test at repo_miner.py line 187
short-circuits on. -/
theorem no_commits_completion :
    validB (initState [⟨"p", "u", none, none, "Java", 0⟩])
      [(⟨"p", "u", none, none, "Java", 0⟩,
        MineResult.done 0 (some "No commits found"))] = true ∧
    "p" ∈ (runTrace (initState [⟨"p", "u", none, none, "Java", 0⟩])
      [(⟨"p", "u", none, none, "Java", 0⟩,
        MineResult.done 0 (some "No commits found"))]).completedMarks ∧
    validB (initState [⟨"p", "u", none, none, "Java", 0⟩])
      [(⟨"p", "u", none, none, "Java", 0⟩,
        MineResult.done 0 (some ""))] = true ∧
    "p" ∈ (runTrace (initState [⟨"p", "u", none, none, "Java", 0⟩])
      [(⟨"p", "u", none, none, "Java", 0⟩,
        MineResult.done 0 (some ""))]).completedMarks ∧
    (some "No commits found" ≠ (none : Option String)) ∧
    (some "" ≠ (none : Option String)) := by
  refine ⟨by decide, by decide, by decide, by decide, by decide, by decide⟩

/-- Claim C1 amended: over any valid run of the controller loop from the
planned job list, a project `p` is marked completed iff it had at least
one planned shard and every event for `p` — over all split-expanded
shards — was a benign terminal decision: no shard of `p` was dropped by
the stop signal, none set the error flag (a flagging event is a timeout
past the retry budget, or a non-timeout error that is truthy in Python —
present with a non-empty message — and does not contain
"No commits found"), and every shard of `p` was consumed by the end.
In particular `shards_remaining[p]` reaches 0 with `projectHasError[p]`
false exactly in that case. -/
theorem completion_iff (jobs : List Job) (t : List (Job × MineResult))
    (p : String) (hv : validB (initState jobs) t = true) :
    p ∈ (runTrace (initState jobs) t).completedMarks ↔
      (0 < jobs.countP (fun j => j.pName == p) ∧
        noDropsB p t = true ∧ noFlagsB p (initState jobs) t = true ∧
        pendingCount (runTrace (initState jobs) t) p = 0) := by
  have h := marks_run_iff p t (initState jobs) hv rfl rfl
  simpa [initState, pendingCount] using h

/-- Witness for `completion_iff`: a one-shard project whose shard
succeeds cleanly ends up marked completed. -/
theorem completion_iff_witness :
    validB (initState [⟨"p", "u", none, none, "Java", 0⟩])
      [(⟨"p", "u", none, none, "Java", 0⟩, MineResult.done 3 none)] = true ∧
    "p" ∈ (runTrace (initState [⟨"p", "u", none, none, "Java", 0⟩])
      [(⟨"p", "u", none, none, "Java", 0⟩,
        MineResult.done 3 none)]).completedMarks := by
  refine ⟨by decide, ?_⟩
  exact (completion_iff [⟨"p", "u", none, none, "Java", 0⟩]
    [(⟨"p", "u", none, none, "Java", 0⟩, MineResult.done 3 none)] "p"
    (by decide)).mpr (by decide)
